import Mathlib

/-
Shallow embedding of the async-priority-queue counter program
(crates `apq-core` and the counter program built on it).

Modelling conventions:
- `u64` fields are modelled as `Nat`. The counter value uses the source's
  explicit saturating arithmetic (clamped to `[0, U64_MAX]`); the `seq` and
  `num_actions` counters are plain `Nat` increments, mirroring `+= 1` on
  values that stay far below `2^64` in any feasible execution.
- `Pubkey` (a 32-byte actor identifier) is modelled as an opaque-to-the-code
  value; the program only copies it, so `Nat` suffices.
- The ordered action store is sokoban's `RedBlackTree<AsyncIxKey, Pubkey, 8192>`,
  an external crate. Modelled from the spec: a fixed-capacity ordered map,
  represented as an association list sorted ascending by key, capacity 8192;
  `insert` overwrites the value when the key is present, silently leaves the
  store unchanged when the arena is full (sokoban returns `None`, which the
  caller `CounterState::queue_async` discards), and otherwise places the node
  in key order; the leftmost tree node (head of the sorted list) is the
  minimum. `peek_async` walks to the leftmost node; `pop_async` peeks and then
  removes that node by key.
- Fallible operations return `Except ProgramError`; the dispatcher result
  distinguishes a Rust panic (`instruction_data[0]` on an empty slice) from a
  typed `ProgramError`.
-/

/-- Maximum value of a 64-bit unsigned integer. -/
def U64_MAX : Nat := 18446744073709551615

/-- 32-byte actor identifier associated with an invocation. -/
abbrev Pubkey := Nat

/-- Errors surfaced to the invocation boundary (pinocchio's ProgramError,
restricted to the variants this program can produce). -/
inductive ProgramError where
  | InvalidInstructionData
  | InvalidAccountData
  | NotEnoughAccountKeys
  | Custom (code : Nat)
deriving DecidableEq, Repr

/-- Sync instruction discriminants (`CounterSyncIx`): refill is the only
variant, with discriminant 0. -/
inductive CounterSyncIx where
  | RefillActions
deriving DecidableEq, Repr

/-- `CounterSyncIx::MAX_VARIANT`. -/
def CounterSyncIx.MAX_VARIANT : Nat := 0

/-- Async instruction discriminants (`CounterAsyncIx`): decrement = 0,
increment = 1. -/
inductive CounterAsyncIx where
  | Decrement
  | Increment
deriving DecidableEq, Repr

/-- `CounterAsyncIx::MAX_VARIANT`. -/
def CounterAsyncIx.MAX_VARIANT : Nat := 1

/-- The `repr(u64)` discriminant value of an async instruction
(`*ixn as u64` in `queue_async`). -/
def CounterAsyncIx.toU64 : CounterAsyncIx → Nat
  | .Decrement => 0
  | .Increment => 1

/-- Little-endian u64 read of the first 8 bytes of a slice
(`ix.as_ptr().cast::<u64>().read_unaligned()` on a little-endian target). -/
def leU64 (bytes : List Nat) : Nat :=
  (bytes.take 8).foldr (fun b acc => b + 256 * acc) 0

/-- `CounterSyncIx::from_bytes`: split off 8 bytes (failing when the slice is
shorter), read the little-endian u64, reject values above `MAX_VARIANT`.
The discarded `black_box` probe of byte 0 in the source has no effect. -/
def CounterSyncIx.fromBytes (bytes : List Nat) : Except ProgramError CounterSyncIx :=
  if bytes.length < 8 then .error .InvalidInstructionData
  else if CounterSyncIx.MAX_VARIANT < leU64 bytes then .error .InvalidInstructionData
  else .ok .RefillActions

/-- `CounterAsyncIx::from_bytes`: split off 8 bytes (failing when the slice is
shorter), read the little-endian u64, reject values above `MAX_VARIANT`, and
return the variant with that discriminant. -/
def CounterAsyncIx.fromBytes (bytes : List Nat) : Except ProgramError CounterAsyncIx :=
  if bytes.length < 8 then .error .InvalidInstructionData
  else if CounterAsyncIx.MAX_VARIANT < leU64 bytes then .error .InvalidInstructionData
  else if leU64 bytes = 0 then .ok .Decrement
  else .ok .Increment

/-- Composite priority key (`AsyncIxKey`): ledger slot at enqueue time, async
discriminant value, and per-region sequence number. -/
structure AsyncIxKey where
  slot : Nat
  ixn_value : Nat
  seq : Nat
deriving DecidableEq, Repr

/-- The strict order `derive(PartialOrd, Ord)` produces for `AsyncIxKey`:
field-by-field comparison in declaration order (slot, then ixn_value, then
seq). -/
def keyLtb (a b : AsyncIxKey) : Bool :=
  decide (a.slot < b.slot) ||
    (decide (a.slot = b.slot) &&
      (decide (a.ixn_value < b.ixn_value) ||
        (decide (a.ixn_value = b.ixn_value) && decide (a.seq < b.seq))))

/-- The spec's description of the key order: totally ordered lexicographically
on (epoch, kind, seq) ascending. Stated from the spec's words, for comparison
with the derived order `keyLtb`. -/
def specKeyLt (a b : AsyncIxKey) : Prop :=
  a.slot < b.slot ∨
    (a.slot = b.slot ∧
      (a.ixn_value < b.ixn_value ∨
        (a.ixn_value = b.ixn_value ∧ a.seq < b.seq)))

/-- A stored node: priority key paired with the queuing actor's identifier. -/
abbrev QueueNode := AsyncIxKey × Pubkey

/-- Fixed capacity of the ordered action store (8192 arena slots). -/
def QUEUE_CAPACITY : Nat := 8192

/-- Whether the store already holds a node with the given key. -/
def containsKey (k : AsyncIxKey) : List QueueNode → Bool
  | [] => false
  | kv :: rest => if kv.1 = k then true else containsKey k rest

/-- Remove the first node with the given key (`remove(&val.key)`). -/
def removeKey (k : AsyncIxKey) : List QueueNode → List QueueNode
  | [] => []
  | kv :: rest => if kv.1 = k then rest else kv :: removeKey k rest

/-- Place a node at its position in the ascending key order, overwriting the
value when the key is already present (ordered-map insert semantics). -/
def sortedInsert (k : AsyncIxKey) (v : Pubkey) : List QueueNode → List QueueNode
  | [] => [(k, v)]
  | kv :: rest =>
    if k = kv.1 then (k, v) :: rest
    else if keyLtb k kv.1 then (k, v) :: kv :: rest
    else kv :: sortedInsert k v rest

/-- Modelled from the spec: sokoban `RedBlackTree::insert` on the store.
Overwrites when the key exists; when the arena is full the insert fails and
the store is unchanged (the `Option` result is discarded by the caller);
otherwise places the node in order. -/
def storeInsert (k : AsyncIxKey) (v : Pubkey) (q : List QueueNode) : List QueueNode :=
  if containsKey k q then sortedInsert k v q
  else if QUEUE_CAPACITY ≤ q.length then q
  else sortedInsert k v q

/-- The persistent state region (`CounterState`): sequence counter (doubling
as the init flag), remaining action credits, the observable counter value,
and the embedded ordered store. -/
structure CounterState where
  seq : Nat
  num_actions : Nat
  counter : Nat
  async_queue : List QueueNode
deriving DecidableEq, Repr

/-- State written by `initialize_state` on first touch: `seq = 1`, everything
else zero / empty. -/
def initState : CounterState :=
  { seq := 1, num_actions := 0, counter := 0, async_queue := [] }

/-- `CounterState::peek_async`: the leftmost node of the tree, i.e. the head
of the ascending-ordered store, or `none` when the root is the sentinel. -/
def peekAsync (s : CounterState) : Option QueueNode :=
  s.async_queue.head?

/-- `CounterState::pop_async`: peek, then remove the peeked node by key,
returning the node. -/
def popAsync (s : CounterState) : Option QueueNode × CounterState :=
  match peekAsync s with
  | none => (none, s)
  | some kv => (some kv, { s with async_queue := removeKey kv.1 s.async_queue })

/-- `CounterState::queue_async`: fail with `Custom(0x0)` when no credit is
left; otherwise build the key `{slot, ixn_value, seq}`, bump `seq`, spend one
credit, and insert the node (the insert's failure result is discarded). -/
def queueAsync (s : CounterState) (ixn : CounterAsyncIx) (slot : Nat) (actor : Pubkey) :
    Except ProgramError CounterState :=
  if s.num_actions = 0 then .error (.Custom 0)
  else
    .ok { s with
          seq := s.seq + 1
          num_actions := s.num_actions - 1
          async_queue := storeInsert ⟨slot, ixn.toU64, s.seq⟩ actor s.async_queue }

/-- `CounterSyncIx::process`: the refill executor adds one credit and always
succeeds. -/
def syncProcess (ixn : CounterSyncIx) (s : CounterState) : CounterState :=
  match ixn with
  | .RefillActions => { s with num_actions := s.num_actions + 1 }

/-- `CounterAsyncIx::process`: the async executors move the counter by one
with saturating arithmetic. -/
def applyAsyncIx (ixn : CounterAsyncIx) (s : CounterState) : CounterState :=
  match ixn with
  | .Increment => { s with counter := min (s.counter + 1) U64_MAX }
  | .Decrement => { s with counter := s.counter - 1 }

/-- Reading a key's `ixn_value` back as a `CounterAsyncIx`. The source uses an
unchecked `transmute`; the model returns `none` on an out-of-range value (a
case the reachable-state invariant proves impossible). -/
def decodeKind (n : Nat) : Option CounterAsyncIx :=
  if n = 0 then some .Decrement
  else if n = 1 then some .Increment
  else none

/-- `CounterState::process_next_async`, instrumented to also report the node
it popped: pop the minimum node (if any) and run the executor whose
discriminant is stored in the key. -/
def processNextAsyncAux (s : CounterState) : Option QueueNode × CounterState :=
  match popAsync s with
  | (none, s1) => (none, s1)
  | (some kv, s1) =>
    match decodeKind kv.1.ixn_value with
    | some ixn => (some kv, applyAsyncIx ixn s1)
    | none => (some kv, s1)

/-- `CounterState::process_next_async` proper (always succeeds). -/
def processNextAsync (s : CounterState) : CounterState :=
  (processNextAsyncAux s).2

/-- `CounterState::has_pending_async`: false on an empty store, otherwise
whether the minimum key's enqueue slot satisfies `slot + 1 <= current`. -/
def hasPendingAsync (s : CounterState) (slot : Nat) : Bool :=
  match peekAsync s with
  | none => false
  | some kv => decide (kv.1.slot + 1 ≤ slot)

/-- The drain loop `while has_pending_async { process_next_async }`, with
explicit fuel and an explicit trace of the nodes popped, in order. One unit
of fuel per pop suffices because every pop removes the store's head. -/
def drainFuel : Nat → CounterState → Nat → CounterState × List QueueNode
  | 0, s, _ => (s, [])
  | fuel + 1, s, slot =>
    if hasPendingAsync s slot then
      match processNextAsyncAux s with
      | (none, s1) => (s1, [])
      | (some kv, s1) =>
        let r := drainFuel fuel s1 slot
        (r.1, kv :: r.2)
    else (s, [])

/-- The drain arm of the dispatcher: run the loop to completion (store length
is enough fuel) and report the final state with the popped nodes in order. -/
def drainAsync (s : CounterState) (slot : Nat) : CounterState × List QueueNode :=
  drainFuel s.async_queue.length s slot

/-- Outcome of one invocation of `CounterProgram::process`: a Rust panic, a
typed `ProgramError`, or success with the mutated state. -/
inductive DispatchResult where
  | panicked
  | failed (e : ProgramError)
  | succeeded (s : CounterState)
deriving DecidableEq, Repr

/-- `CounterProgram::process` after the state region is loaded (and
initialized if its first word was zero): read the operation tag at
`instruction_data[0]` — a panic on an empty payload — then dispatch on it.
Tag 0 decodes and runs the sync instruction, tag 1 decodes and queues an
async instruction, tag 2 drains all ready async instructions, and any other
tag is `InvalidInstructionData`. -/
def counterProcess (s : CounterState) (instructionData : List Nat) (slot : Nat)
    (user : Pubkey) : DispatchResult :=
  match instructionData with
  | [] => .panicked
  | tag :: ixData =>
    match tag with
    | 0 =>
      match CounterSyncIx.fromBytes ixData with
      | .error e => .failed e
      | .ok ixn => .succeeded (syncProcess ixn s)
    | 1 =>
      match CounterAsyncIx.fromBytes ixData with
      | .error e => .failed e
      | .ok ixn =>
        match queueAsync s ixn slot user with
        | .error e => .failed e
        | .ok s1 => .succeeded s1
    | 2 => .succeeded (drainAsync s slot).1
    | _ => .failed .InvalidInstructionData

/-- One public operation against a region, at the typed level the dispatcher
reaches after decode validation: a sync refill, an async enqueue of a decoded
variant by some actor, or a drain. -/
inductive CounterOp where
  | refillOp
  | enqueueOp (ixn : CounterAsyncIx) (actor : Pubkey)
  | drainOp
deriving DecidableEq, Repr

/-- One invocation: an operation together with the ledger slot the host
reports while it runs. -/
structure Invocation where
  op : CounterOp
  slot : Nat
deriving DecidableEq, Repr

/-- Apply one invocation to the region. A failed enqueue leaves the region
unchanged (the host rolls back the memory of a failed invocation). -/
def stepInv (s : CounterState) (i : Invocation) : CounterState :=
  match i.op with
  | .refillOp => syncProcess .RefillActions s
  | .enqueueOp ixn actor =>
    match queueAsync s ixn i.slot actor with
    | .ok s1 => s1
    | .error _ => s
  | .drainOp => (drainAsync s i.slot).1

/-- Run a sequence of invocations left to right. -/
def runInvs (s : CounterState) (invs : List Invocation) : CounterState :=
  invs.foldl stepInv s

/-- The `seq` values assigned to the successful enqueues of a run, in order
(each successful enqueue stamps the pre-state's `seq` into its key). -/
def assignedSeqs (s : CounterState) : List Invocation → List Nat
  | [] => []
  | i :: rest =>
    match i.op with
    | .enqueueOp _ _ =>
      if s.num_actions = 0 then assignedSeqs (stepInv s i) rest
      else s.seq :: assignedSeqs (stepInv s i) rest
    | _ => assignedSeqs (stepInv s i) rest

/-- The store's well-formedness invariant: nodes strictly ascending by key. -/
abbrev StoreSorted (s : CounterState) : Prop :=
  s.async_queue.Pairwise (fun a b => keyLtb a.1 b.1 = true)

/-- A small concrete region used to witness the claim theorems: two actions
queued at epoch 3, with kinds 0 and 1 and seqs 5 and 6. -/
def wState : CounterState :=
  { seq := 10, num_actions := 2, counter := 0
    async_queue := [(⟨3, 0, 5⟩, 7), (⟨3, 1, 6⟩, 8)] }

/-- A store holding exactly 8192 nodes (its fixed capacity), all queued at
slot 0 with kind 0 and distinct seqs `0..8191`. -/
def fullQueue : List QueueNode :=
  (List.range QUEUE_CAPACITY).map (fun i => (⟨0, 0, i⟩, 0))

/-- A region whose store is full and which still holds one credit. -/
def fullState : CounterState :=
  { seq := 9000, num_actions := 1, counter := 0, async_queue := fullQueue }

/-- A small trace used by the witnesses: refill, enqueue increment, refill,
enqueue decrement, all at slot 0. -/
def wTrace : List Invocation :=
  [⟨.refillOp, 0⟩, ⟨.enqueueOp .Increment 7, 0⟩,
    ⟨.refillOp, 0⟩, ⟨.enqueueOp .Decrement 8, 0⟩]

/-
Helper lemmas on the key order and the store operations.
-/

theorem keyLtb_irrefl (a : AsyncIxKey) : keyLtb a a = false := by
  simp [keyLtb]

theorem keyLtb_asymm {a b : AsyncIxKey} (h1 : keyLtb a b = true)
    (h2 : keyLtb b a = true) : False := by
  simp only [keyLtb, Bool.or_eq_true, Bool.and_eq_true, decide_eq_true_eq] at h1 h2
  omega

theorem keyLtb_trans {a b c : AsyncIxKey} (h1 : keyLtb a b = true)
    (h2 : keyLtb b c = true) : keyLtb a c = true := by
  simp only [keyLtb, Bool.or_eq_true, Bool.and_eq_true, decide_eq_true_eq] at h1 h2 ⊢
  omega

theorem keyLtb_total {a b : AsyncIxKey} (h : a ≠ b) :
    keyLtb a b = true ∨ keyLtb b a = true := by
  have hne : a.slot ≠ b.slot ∨ a.ixn_value ≠ b.ixn_value ∨ a.seq ≠ b.seq := by
    by_contra hc
    push_neg at hc
    exact h (by cases a; cases b; simp_all)
  simp only [keyLtb, Bool.or_eq_true, Bool.and_eq_true, decide_eq_true_eq]
  omega

theorem ne_of_keyLtb {a b : AsyncIxKey} (h : keyLtb a b = true) : a ≠ b := by
  intro he
  subst he
  simp [keyLtb_irrefl] at h

theorem containsKey_eq_false_iff {k : AsyncIxKey} {q : List QueueNode} :
    containsKey k q = false ↔ ∀ kv ∈ q, kv.1 ≠ k := by
  induction q with
  | nil => simp [containsKey]
  | cons kv rest ih =>
    by_cases hk : kv.1 = k
    · simp [containsKey, hk]
    · simp [containsKey, hk, ih]

theorem mem_sortedInsert {x : QueueNode} {k : AsyncIxKey} {v : Pubkey}
    {q : List QueueNode} (hx : x ∈ sortedInsert k v q) : x = (k, v) ∨ x ∈ q := by
  induction q with
  | nil => simpa [sortedInsert] using hx
  | cons kv rest ih =>
    by_cases hk : k = kv.1
    · simp only [sortedInsert, if_pos hk, List.mem_cons] at hx
      rcases hx with hx | hx
      · exact Or.inl hx
      · exact Or.inr (List.mem_cons_of_mem _ hx)
    · by_cases hlt : keyLtb k kv.1
      · simp only [sortedInsert, if_neg hk, if_pos hlt, List.mem_cons] at hx
        rcases hx with hx | hx | hx
        · exact Or.inl hx
        · exact Or.inr (by simp [hx])
        · exact Or.inr (List.mem_cons_of_mem _ hx)
      · simp only [sortedInsert, if_neg hk, if_neg hlt, List.mem_cons] at hx
        rcases hx with hx | hx
        · exact Or.inr (by simp [hx])
        · rcases ih hx with hx | hx
          · exact Or.inl hx
          · exact Or.inr (List.mem_cons_of_mem _ hx)

theorem self_mem_sortedInsert (k : AsyncIxKey) (v : Pubkey) (q : List QueueNode) :
    (k, v) ∈ sortedInsert k v q := by
  induction q with
  | nil => simp [sortedInsert]
  | cons kv rest ih =>
    by_cases hk : k = kv.1
    · simp [sortedInsert, hk]
    · by_cases hlt : keyLtb k kv.1
      · simp [sortedInsert, hk, hlt]
      · simp only [sortedInsert, if_neg hk, if_neg hlt]
        exact List.mem_cons_of_mem _ ih

theorem pairwise_sortedInsert {R : QueueNode → QueueNode → Prop}
    {k : AsyncIxKey} {v : Pubkey} {q : List QueueNode}
    (hq : q.Pairwise R)
    (hrel : ∀ kv ∈ q, R (k, v) kv ∧ R kv (k, v)) :
    (sortedInsert k v q).Pairwise R := by
  induction q with
  | nil => simp [sortedInsert, List.pairwise_cons]
  | cons kv rest ih =>
    rcases List.pairwise_cons.mp hq with ⟨hhead, hrest⟩
    by_cases hk : k = kv.1
    · simp only [sortedInsert, if_pos hk]
      refine List.pairwise_cons.mpr ⟨?_, hrest⟩
      intro x hx
      exact (hrel x (List.mem_cons_of_mem _ hx)).1
    · by_cases hlt : keyLtb k kv.1
      · simp only [sortedInsert, if_neg hk, if_pos hlt]
        refine List.pairwise_cons.mpr ⟨?_, hq⟩
        intro x hx
        exact (hrel x hx).1
      · simp only [sortedInsert, if_neg hk, if_neg hlt]
        refine List.pairwise_cons.mpr ⟨?_, ?_⟩
        · intro x hx
          rcases mem_sortedInsert hx with hx | hx
          · subst hx
            exact (hrel kv (List.mem_cons_self _ _)).2
          · exact hhead x hx
        · exact ih hrest fun x hx => hrel x (List.mem_cons_of_mem _ hx)

theorem sorted_sortedInsert {k : AsyncIxKey} {v : Pubkey} {q : List QueueNode}
    (hq : q.Pairwise (fun a b => keyLtb a.1 b.1 = true)) :
    (sortedInsert k v q).Pairwise (fun a b => keyLtb a.1 b.1 = true) := by
  induction q with
  | nil => simp [sortedInsert, List.pairwise_cons]
  | cons kv rest ih =>
    rcases List.pairwise_cons.mp hq with ⟨hhead, hrest⟩
    by_cases hk : k = kv.1
    · simp only [sortedInsert, if_pos hk]
      refine List.pairwise_cons.mpr ⟨?_, hrest⟩
      intro x hx
      simpa [hk] using hhead x hx
    · by_cases hlt : keyLtb k kv.1
      · simp only [sortedInsert, if_neg hk, if_pos hlt]
        refine List.pairwise_cons.mpr ⟨?_, hq⟩
        intro x hx
        rcases List.mem_cons.mp hx with hx | hx
        · subst hx; exact hlt
        · exact keyLtb_trans hlt (hhead x hx)
      · simp only [sortedInsert, if_neg hk, if_neg hlt]
        refine List.pairwise_cons.mpr ⟨?_, ih hrest⟩
        intro x hx
        rcases mem_sortedInsert hx with hx | hx
        · subst hx
          rcases @keyLtb_total kv.1 k (fun he => hk he.symm) with h | h
          · exact h
          · exact absurd h hlt
        · exact hhead x hx

theorem length_sortedInsert_of_fresh {k : AsyncIxKey} {v : Pubkey}
    {q : List QueueNode} (h : containsKey k q = false) :
    (sortedInsert k v q).length = q.length + 1 := by
  induction q with
  | nil => simp [sortedInsert]
  | cons kv rest ih =>
    simp only [containsKey] at h
    by_cases hk : kv.1 = k
    · simp [hk] at h
    · rw [if_neg hk] at h
      have hk' : ¬ k = kv.1 := fun he => hk he.symm
      by_cases hlt : keyLtb k kv.1
      · simp [sortedInsert, hk', hlt]
      · simp [sortedInsert, hk', hlt, ih h]

theorem perm_sortedInsert {k : AsyncIxKey} {v : Pubkey} {q : List QueueNode}
    (h : containsKey k q = false) :
    List.Perm (sortedInsert k v q) ((k, v) :: q) := by
  induction q with
  | nil => simp [sortedInsert]
  | cons kv rest ih =>
    simp only [containsKey] at h
    by_cases hk : kv.1 = k
    · simp [hk] at h
    · rw [if_neg hk] at h
      have hk' : ¬ k = kv.1 := fun he => hk he.symm
      by_cases hlt : keyLtb k kv.1
      · simp [sortedInsert, hk', hlt]
      · simp only [sortedInsert, if_neg hk', if_neg hlt]
        exact ((ih h).cons kv).trans (List.Perm.swap (k, v) kv rest)

theorem containsKey_sortedInsert_of_ne {k k2 : AsyncIxKey} {v : Pubkey}
    {q : List QueueNode} (hne : k2 ≠ k) (h : containsKey k2 q = false) :
    containsKey k2 (sortedInsert k v q) = false := by
  rw [containsKey_eq_false_iff] at h ⊢
  intro kv hkv
  rcases mem_sortedInsert hkv with hkv | hkv
  · subst hkv
    exact fun he => hne (by simpa using he.symm)
  · exact h kv hkv

/-
Lemmas about the executors, pop, and the drain loop.
-/

theorem applyAsyncIx_async_queue (ixn : CounterAsyncIx) (s : CounterState) :
    (applyAsyncIx ixn s).async_queue = s.async_queue := by
  cases ixn <;> rfl

theorem applyAsyncIx_num_actions (ixn : CounterAsyncIx) (s : CounterState) :
    (applyAsyncIx ixn s).num_actions = s.num_actions := by
  cases ixn <;> rfl

theorem applyAsyncIx_seq (ixn : CounterAsyncIx) (s : CounterState) :
    (applyAsyncIx ixn s).seq = s.seq := by
  cases ixn <;> rfl

theorem removeKey_cons_self (kv : QueueNode) (t : List QueueNode) :
    removeKey kv.1 (kv :: t) = t := by
  simp [removeKey]

theorem popAsync_cons {s : CounterState} {kv : QueueNode} {t : List QueueNode}
    (h : s.async_queue = kv :: t) :
    popAsync s = (some kv, { s with async_queue := t }) := by
  simp [popAsync, peekAsync, h, removeKey_cons_self]

theorem popAsync_nil {s : CounterState} (h : s.async_queue = []) :
    popAsync s = (none, s) := by
  simp [popAsync, peekAsync, h]

theorem processNextAsyncAux_cons {s : CounterState} {kv : QueueNode}
    {t : List QueueNode} (h : s.async_queue = kv :: t) :
    (processNextAsyncAux s).1 = some kv ∧
      (processNextAsyncAux s).2.async_queue = t ∧
      (processNextAsyncAux s).2.num_actions = s.num_actions ∧
      (processNextAsyncAux s).2.seq = s.seq := by
  rw [processNextAsyncAux, popAsync_cons h]
  cases hdk : decodeKind kv.1.ixn_value with
  | none => simp [hdk]
  | some ixn =>
    simp [hdk, applyAsyncIx_async_queue, applyAsyncIx_num_actions, applyAsyncIx_seq]

theorem hasPendingAsync_true_elim {s : CounterState} {slot : Nat}
    (h : hasPendingAsync s slot = true) :
    ∃ kv t, s.async_queue = kv :: t ∧ kv.1.slot + 1 ≤ slot := by
  cases hq : s.async_queue with
  | nil => simp [hasPendingAsync, peekAsync, hq] at h
  | cons kv t =>
    refine ⟨kv, t, rfl, ?_⟩
    simpa [hasPendingAsync, peekAsync, hq] using h

theorem drainFuel_popped_ready {fuel : Nat} {s : CounterState} {slot : Nat} :
    ∀ kv ∈ (drainFuel fuel s slot).2, kv.1.slot + 1 ≤ slot := by
  induction fuel generalizing s with
  | zero => simp [drainFuel]
  | succ fuel ih =>
    intro kv hkv
    by_cases hp : hasPendingAsync s slot
    · rcases hasPendingAsync_true_elim hp with ⟨kv0, t, hq, hready⟩
      rcases processNextAsyncAux_cons hq with ⟨haux1, -, -, -⟩
      rw [drainFuel, if_pos hp] at hkv
      rcases haux : processNextAsyncAux s with ⟨o, s1⟩
      rw [haux] at hkv haux1
      cases o with
      | none => simp at haux1
      | some kv1 =>
        simp only [Option.some.injEq] at haux1
        simp at hkv
        rcases hkv with hkv | hkv
        · subst hkv; rw [haux1]; exact hready
        · exact ih kv hkv
    · rw [drainFuel, if_neg hp] at hkv
      simp at hkv

theorem drainFuel_take_drop {fuel : Nat} {s : CounterState} {slot : Nat} :
    ∃ n, (drainFuel fuel s slot).2 = s.async_queue.take n ∧
      (drainFuel fuel s slot).1.async_queue = s.async_queue.drop n ∧
      (drainFuel fuel s slot).1.num_actions = s.num_actions ∧
      (drainFuel fuel s slot).1.seq = s.seq ∧
      (drainFuel fuel s slot).2.length = n := by
  induction fuel generalizing s with
  | zero => exact ⟨0, by simp [drainFuel]⟩
  | succ fuel ih =>
    by_cases hp : hasPendingAsync s slot
    · rcases hasPendingAsync_true_elim hp with ⟨kv0, t, hq, hready⟩
      rcases processNextAsyncAux_cons hq with ⟨haux1, haux2, haux3, haux4⟩
      rcases haux : processNextAsyncAux s with ⟨o, s1⟩
      rw [haux] at haux1 haux2 haux3 haux4
      cases o with
      | none => simp at haux1
      | some kv1 =>
        simp only [Option.some.injEq] at haux1
        simp only at haux2 haux3 haux4
        rcases @ih s1 with ⟨n, ih1, ih2, ih3, ih4, ih5⟩
        refine ⟨n + 1, ?_, ?_, ?_, ?_, ?_⟩
        · rw [drainFuel, if_pos hp, haux]
          simp only [hq, List.take_succ_cons]
          rw [ih1, haux2, haux1]
        · rw [drainFuel, if_pos hp, haux]
          simp only [hq, List.drop_succ_cons]
          rw [ih2, haux2]
        · rw [drainFuel, if_pos hp, haux]
          simp only
          rw [ih3, haux3]
        · rw [drainFuel, if_pos hp, haux]
          simp only
          rw [ih4, haux4]
        · rw [drainFuel, if_pos hp, haux]
          simp only [List.length_cons]
          rw [ih5]
    · exact ⟨0, by rw [drainFuel, if_neg hp]; simp⟩

theorem drainFuel_not_pending {fuel : Nat} {s : CounterState} {slot : Nat}
    (hp : hasPendingAsync s slot = false) : drainFuel fuel s slot = (s, []) := by
  cases fuel with
  | zero => rfl
  | succ fuel => rw [drainFuel, if_neg (by simp [hp])]

theorem drainFuel_no_pending {fuel : Nat} {s : CounterState} {slot : Nat}
    (hlen : s.async_queue.length ≤ fuel) :
    hasPendingAsync (drainFuel fuel s slot).1 slot = false := by
  induction fuel generalizing s with
  | zero =>
    have hq : s.async_queue = [] := List.length_eq_zero.mp (Nat.le_zero.mp hlen)
    simp [drainFuel, hasPendingAsync, peekAsync, hq]
  | succ fuel ih =>
    by_cases hp : hasPendingAsync s slot
    · rcases hasPendingAsync_true_elim hp with ⟨kv0, t, hq, hready⟩
      rcases processNextAsyncAux_cons hq with ⟨haux1, haux2, haux3, haux4⟩
      rcases haux : processNextAsyncAux s with ⟨o, s1⟩
      rw [haux] at haux1 haux2
      cases o with
      | none => simp at haux1
      | some kv1 =>
        simp only at haux2
        rw [drainFuel, if_pos hp, haux]
        simp only
        apply ih
        rw [haux2]
        have : s.async_queue.length ≤ fuel + 1 := hlen
        rw [hq] at this
        simpa using Nat.lt_succ_iff.mp (Nat.lt_of_lt_of_le (by simp) this)
    · rw [drainFuel_not_pending (by simpa using hp)]
      simpa using hp

theorem drainAsync_popped_ready {s : CounterState} {slot : Nat} :
    ∀ kv ∈ (drainAsync s slot).2, kv.1.slot + 1 ≤ slot :=
  drainFuel_popped_ready

theorem drainAsync_no_pending (s : CounterState) (slot : Nat) :
    hasPendingAsync (drainAsync s slot).1 slot = false :=
  drainFuel_no_pending (Nat.le_refl _)

theorem drainAsync_not_pending {s : CounterState} {slot : Nat}
    (hp : hasPendingAsync s slot = false) : drainAsync s slot = (s, []) :=
  drainFuel_not_pending hp

theorem drainAsync_head_popped {s : CounterState} {kv : QueueNode} {slot : Nat}
    (hpeek : peekAsync s = some kv) (hready : kv.1.slot + 1 ≤ slot) :
    kv ∈ (drainAsync s slot).2 := by
  have hq : ∃ t, s.async_queue = kv :: t := by
    cases hqq : s.async_queue with
    | nil => simp [peekAsync, hqq] at hpeek
    | cons kv0 t =>
      refine ⟨t, ?_⟩
      simp only [peekAsync, hqq, List.head?_cons, Option.some.injEq] at hpeek
      rw [hpeek]
  rcases hq with ⟨t, hq⟩
  have hp : hasPendingAsync s slot = true := by
    simp [hasPendingAsync, hpeek, hready]
  have hlen : s.async_queue.length = t.length + 1 := by rw [hq]; simp
  rcases processNextAsyncAux_cons hq with ⟨haux1, -, -, -⟩
  rcases haux : processNextAsyncAux s with ⟨o, s1⟩
  rw [haux] at haux1
  cases o with
  | none => simp at haux1
  | some kv1 =>
    simp only [Option.some.injEq] at haux1
    unfold drainAsync
    rw [hlen, drainFuel, if_pos hp, haux]
    simp [haux1]

/-
Claim theorems: epoch gating, drain protocol, peek/pop consistency.
-/

/-- C2: an action queued at epoch `e` is never popped by a drain running at a
current epoch `c ≤ e`, the minimum action is eligible (and popped) whenever
`e + 1 ≤ c`, and the readiness predicate holds iff the minimum's enqueue
epoch satisfies `e + 1 ≤ c`. -/
theorem c2_epoch_gating (s : CounterState) (c : Nat) :
    (hasPendingAsync s c = true ↔ ∃ kv, peekAsync s = some kv ∧ kv.1.slot + 1 ≤ c)
    ∧ (∀ kv ∈ (drainAsync s c).2, kv.1.slot + 1 ≤ c)
    ∧ (∀ kv, peekAsync s = some kv → kv.1.slot + 1 ≤ c → kv ∈ (drainAsync s c).2) := by
  refine ⟨?_, drainAsync_popped_ready,
    fun kv hpeek hready => drainAsync_head_popped hpeek hready⟩
  constructor
  · intro h
    rcases hasPendingAsync_true_elim h with ⟨kv, t, hq, hr⟩
    exact ⟨kv, by simp [peekAsync, hq], hr⟩
  · rintro ⟨kv, hpeek, hr⟩
    simp [hasPendingAsync, hpeek, hr]

theorem c2_epoch_gating_witness :
    hasPendingAsync wState 4 = true
    ∧ (⟨3, 0, 5⟩, 7) ∈ (drainAsync wState 4).2
    ∧ hasPendingAsync wState 3 = false :=
  ⟨by decide, (c2_epoch_gating wState 4).2.2 (⟨3, 0, 5⟩, 7) rfl (by decide), by decide⟩

/-- C4: a drain pops eligible actions one at a time in ascending key order
(the popped trace is an ascending chain), stops exactly when the store is
empty or the minimum is not ready (no readiness holds at the final state),
pops nothing at all when the minimum is not ready (a blocked head blocks the
whole store), and the drain arm of the dispatcher always succeeds. -/
theorem c4_drain_protocol (s : CounterState) (c : Nat) :
    (StoreSorted s →
      List.Chain' (fun a b => keyLtb a.1 b.1 = true) (drainAsync s c).2)
    ∧ hasPendingAsync (drainAsync s c).1 c = false
    ∧ (hasPendingAsync s c = false → drainAsync s c = (s, []))
    ∧ (∀ rest u, counterProcess s (2 :: rest) c u = .succeeded (drainAsync s c).1) := by
  refine ⟨?_, drainAsync_no_pending s c,
    fun hp => drainAsync_not_pending hp, fun rest u => rfl⟩
  intro hs
  rcases @drainFuel_take_drop s.async_queue.length s c with
    ⟨n, h1, -, -, -, -⟩
  have h2 : (drainAsync s c).2 = s.async_queue.take n := h1
  rw [h2]
  exact (List.Pairwise.sublist (List.take_sublist n _) hs).chain'

theorem c4_drain_protocol_witness :
    List.Chain' (fun a b => keyLtb a.1 b.1 = true) (drainAsync wState 4).2
    ∧ drainAsync wState 3 = (wState, []) :=
  ⟨(c4_drain_protocol wState 4).1 (by decide),
    (c4_drain_protocol wState 3).2.2.1 (by decide)⟩

/-- C6: on a well-formed store, `peek_async` returns `none` iff the store is
empty; a peeked node is in the store and its key is minimal among all stored
keys; and `pop_async` with no intervening mutation removes and returns
exactly the peeked node. -/
theorem c6_peek_pop_min (s : CounterState) (hs : StoreSorted s) :
    (peekAsync s = none ↔ s.async_queue = [])
    ∧ ∀ kv, peekAsync s = some kv →
        kv ∈ s.async_queue
        ∧ (∀ kv' ∈ s.async_queue, kv' = kv ∨ keyLtb kv.1 kv'.1 = true)
        ∧ popAsync s = (some kv, { s with async_queue := s.async_queue.tail }) := by
  constructor
  · simp [peekAsync, List.head?_eq_none_iff]
  · intro kv hpeek
    cases hq : s.async_queue with
    | nil => simp [peekAsync, hq] at hpeek
    | cons kv0 t =>
      have hkv : kv0 = kv := by simpa [peekAsync, hq] using hpeek
      subst hkv
      refine ⟨by simp [hq], ?_, ?_⟩
      · intro kv' hkv'
        have hs' : (kv0 :: t).Pairwise (fun a b => keyLtb a.1 b.1 = true) := hq ▸ hs
        rcases List.mem_cons.mp hkv' with h | h
        · exact Or.inl h
        · exact Or.inr ((List.pairwise_cons.mp hs').1 kv' h)
      · rw [popAsync_cons hq]
        simp [hq]

theorem c6_peek_pop_min_witness :
    popAsync wState = (some (⟨3, 0, 5⟩, 7),
      { wState with async_queue := wState.async_queue.tail }) :=
  ((c6_peek_pop_min wState (by decide)).2 (⟨3, 0, 5⟩, 7) rfl).2.2

/-
Credit conservation, capacity behaviour, decode layer, empty-payload panic.
-/

theorem processNextAsync_num_actions (s : CounterState) :
    (processNextAsync s).num_actions = s.num_actions := by
  cases hq : s.async_queue with
  | nil =>
    rw [processNextAsync, processNextAsyncAux, popAsync_nil hq]
  | cons kv t => exact (processNextAsyncAux_cons hq).2.2.1

theorem drainAsync_num_actions (s : CounterState) (c : Nat) :
    (drainAsync s c).1.num_actions = s.num_actions := by
  rcases @drainFuel_take_drop s.async_queue.length s c with
    ⟨n, -, -, h3, -, -⟩
  exact h3

theorem drainAsync_seq (s : CounterState) (c : Nat) :
    (drainAsync s c).1.seq = s.seq := by
  rcases @drainFuel_take_drop s.async_queue.length s c with
    ⟨n, -, -, -, h4, -⟩
  exact h4

/-- C3: an enqueue succeeds iff `credit > 0` before the call; on success it
decreases the credit by exactly 1 and increments `seq` by exactly 1; with
zero credit it fails with the insufficient-credit condition (`Custom(0x0)`);
a sync refill adds exactly 1 credit and always succeeds (it is a total state
update); and neither the per-action executor nor a whole drain changes the
credit. -/
theorem c3_credit_conservation (s : CounterState) (ixn : CounterAsyncIx)
    (c : Nat) (a : Pubkey) :
    ((∃ s1, queueAsync s ixn c a = .ok s1) ↔ 0 < s.num_actions)
    ∧ (∀ s1, queueAsync s ixn c a = .ok s1 →
        s1.num_actions + 1 = s.num_actions ∧ s1.seq = s.seq + 1)
    ∧ (s.num_actions = 0 → queueAsync s ixn c a = .error (.Custom 0))
    ∧ (syncProcess .RefillActions s).num_actions = s.num_actions + 1
    ∧ (processNextAsync s).num_actions = s.num_actions
    ∧ (drainAsync s c).1.num_actions = s.num_actions := by
  refine ⟨?_, ?_, ?_, rfl, processNextAsync_num_actions s, drainAsync_num_actions s c⟩
  · constructor
    · rintro ⟨s1, hs1⟩
      by_cases h : s.num_actions = 0
      · rw [queueAsync, if_pos h] at hs1
        exact absurd hs1 (by simp)
      · exact Nat.pos_of_ne_zero h
    · intro h
      rw [queueAsync, if_neg (Nat.pos_iff_ne_zero.mp h)]
      exact ⟨_, rfl⟩
  · intro s1 hs1
    by_cases h : s.num_actions = 0
    · rw [queueAsync, if_pos h] at hs1
      exact absurd hs1 (by simp)
    · rw [queueAsync, if_neg h] at hs1
      simp only [Except.ok.injEq] at hs1
      rw [← hs1]
      exact ⟨by show s.num_actions - 1 + 1 = s.num_actions; omega, rfl⟩
  · intro h
    rw [queueAsync, if_pos h]

theorem c3_credit_conservation_witness :
    (∃ s1, queueAsync wState .Increment 3 9 = .ok s1)
    ∧ queueAsync { wState with num_actions := 0 } .Increment 3 9 =
        .error (.Custom 0) :=
  ⟨(c3_credit_conservation wState .Increment 3 9).1.mpr (by decide),
    (c3_credit_conservation { wState with num_actions := 0 } .Increment 3 9).2.2.1 rfl⟩

theorem fullQueue_length : fullQueue.length = QUEUE_CAPACITY := by
  simp [fullQueue]

theorem containsKey_fullQueue : containsKey ⟨5, 1, 9000⟩ fullQueue = false := by
  rw [containsKey_eq_false_iff]
  intro kv hkv
  simp only [fullQueue, List.mem_map, List.mem_range] at hkv
  rcases hkv with ⟨i, -, rfl⟩
  simp

theorem storeInsert_fullQueue (a : Pubkey) :
    storeInsert ⟨5, 1, 9000⟩ a fullQueue = fullQueue := by
  rw [storeInsert, containsKey_fullQueue]
  simp [fullQueue_length]

/-- C1 is a code bug: on a store already at its 8192-node capacity, the
enqueue does NOT fail with any capacity-exceeded condition. `queue_async`
discards the store insert's failure result, so the invocation succeeds,
`seq` is still incremented, the credit is still spent, and the node is
silently dropped (the store is unchanged). No `CapacityExceeded` error
exists in the code. -/
theorem c1_capacity_silently_dropped :
    fullState.async_queue.length = QUEUE_CAPACITY
    ∧ queueAsync fullState .Increment 5 7 =
        .ok { fullState with seq := fullState.seq + 1, num_actions := 0 }
    ∧ counterProcess fullState [1, 1, 0, 0, 0, 0, 0, 0, 0] 5 7 =
        .succeeded { fullState with seq := fullState.seq + 1, num_actions := 0 } := by
  have hsq : fullState.seq = 9000 := by simp [fullState]
  have hna : fullState.num_actions = 1 := by simp [fullState]
  have hct : fullState.counter = 0 := by simp [fullState]
  have hqu : fullState.async_queue = fullQueue := by simp [fullState]
  have hq : queueAsync fullState .Increment 5 7 =
      .ok { fullState with seq := fullState.seq + 1, num_actions := 0 } := by
    rw [queueAsync, if_neg (by rw [hna]; omega)]
    simp only [hsq, hna, hct, hqu, CounterAsyncIx.toU64]
    rw [storeInsert_fullQueue]
  refine ⟨by rw [hqu]; exact fullQueue_length, hq, ?_⟩
  have hd : CounterAsyncIx.fromBytes [1, 0, 0, 0, 0, 0, 0, 0] = .ok .Increment := rfl
  simp only [counterProcess, hd, hq]

/-- C8: decoding an instruction discriminant fails with
`InvalidInstructionData` iff the payload is shorter than 8 bytes or the
little-endian u64 it starts with exceeds the type's maximum variant value;
otherwise it succeeds and returns the variant with that discriminant; a
4-byte payload always fails; and a failed decode fails the whole invocation
(the dispatcher returns the typed failure, producing no state). -/
theorem c8_decode_bounds (bytes : List Nat) :
    (CounterAsyncIx.fromBytes bytes = .error .InvalidInstructionData ↔
      (bytes.length < 8 ∨ CounterAsyncIx.MAX_VARIANT < leU64 bytes))
    ∧ (CounterSyncIx.fromBytes bytes = .error .InvalidInstructionData ↔
      (bytes.length < 8 ∨ CounterSyncIx.MAX_VARIANT < leU64 bytes))
    ∧ (¬(bytes.length < 8 ∨ CounterAsyncIx.MAX_VARIANT < leU64 bytes) →
        ∃ ixn, CounterAsyncIx.fromBytes bytes = .ok ixn ∧ ixn.toU64 = leU64 bytes)
    ∧ (¬(bytes.length < 8 ∨ CounterSyncIx.MAX_VARIANT < leU64 bytes) →
        CounterSyncIx.fromBytes bytes = .ok .RefillActions)
    ∧ (bytes.length = 4 →
        CounterAsyncIx.fromBytes bytes = .error .InvalidInstructionData)
    ∧ (∀ s c u, bytes.length < 8 →
        counterProcess s (1 :: bytes) c u = .failed .InvalidInstructionData) := by
  refine ⟨?_, ?_, ?_, ?_, ?_, ?_⟩
  · rw [CounterAsyncIx.fromBytes]
    split_ifs with h1 h2 h3 <;> simp_all
  · rw [CounterSyncIx.fromBytes]
    split_ifs with h1 h2 <;> simp_all
  · intro h
    push_neg at h
    rw [CounterAsyncIx.fromBytes, if_neg (by omega), if_neg (by omega)]
    by_cases h0 : leU64 bytes = 0
    · rw [if_pos h0]
      exact ⟨.Decrement, rfl, by simp [CounterAsyncIx.toU64, h0]⟩
    · rw [if_neg h0]
      refine ⟨.Increment, rfl, ?_⟩
      have : leU64 bytes ≤ CounterAsyncIx.MAX_VARIANT := h.2
      rw [CounterAsyncIx.MAX_VARIANT] at this
      simp only [CounterAsyncIx.toU64]
      omega
  · intro h
    push_neg at h
    rw [CounterSyncIx.fromBytes, if_neg (by omega), if_neg (by omega)]
  · intro h
    rw [CounterAsyncIx.fromBytes, if_pos (by omega)]
  · intro s c u h
    have hd : CounterAsyncIx.fromBytes bytes = .error .InvalidInstructionData := by
      rw [CounterAsyncIx.fromBytes, if_pos h]
    simp only [counterProcess, hd]

theorem c8_decode_bounds_witness :
    CounterAsyncIx.fromBytes [1, 0, 0, 0] = .error .InvalidInstructionData
    ∧ counterProcess wState [1, 1, 0, 0, 0] 3 9 = .failed .InvalidInstructionData
    ∧ CounterSyncIx.fromBytes [0, 0, 0, 0, 0, 0, 0, 0] = .ok .RefillActions :=
  ⟨(c8_decode_bounds [1, 0, 0, 0]).2.2.2.2.1 rfl,
    (c8_decode_bounds [1, 0, 0, 0]).2.2.2.2.2 wState 3 9 (by decide),
    (c8_decode_bounds [0, 0, 0, 0, 0, 0, 0, 0]).2.2.2.1 (by decide)⟩

/-- C10: an invocation with an empty instruction payload panics on the
out-of-bounds read `instruction_data[0]` of the operation tag; it does not
return a typed failure such as `InvalidInstructionData`. -/
theorem c10_empty_payload_panics (s : CounterState) (c : Nat) (u : Pubkey) :
    counterProcess s [] c u = .panicked
    ∧ ∀ e, counterProcess s [] c u ≠ .failed e :=
  ⟨rfl, fun _ h => DispatchResult.noConfusion h⟩

/-
Reachable-state invariants over traces of public operations.
-/

theorem mem_storeInsert {x : QueueNode} {k : AsyncIxKey} {v : Pubkey}
    {q : List QueueNode} (hx : x ∈ storeInsert k v q) : x = (k, v) ∨ x ∈ q := by
  rw [storeInsert] at hx
  split_ifs at hx
  · exact mem_sortedInsert hx
  · exact Or.inr hx
  · exact mem_sortedInsert hx

theorem pairwise_storeInsert {R : QueueNode → QueueNode → Prop}
    {k : AsyncIxKey} {v : Pubkey} {q : List QueueNode}
    (hq : q.Pairwise R)
    (hrel : ∀ kv ∈ q, R (k, v) kv ∧ R kv (k, v)) :
    (storeInsert k v q).Pairwise R := by
  rw [storeInsert]
  split_ifs
  · exact pairwise_sortedInsert hq hrel
  · exact hq
  · exact pairwise_sortedInsert hq hrel

theorem stepInv_refill (s : CounterState) (slot : Nat) :
    stepInv s ⟨.refillOp, slot⟩ = syncProcess .RefillActions s := rfl

theorem stepInv_drain (s : CounterState) (slot : Nat) :
    stepInv s ⟨.drainOp, slot⟩ = (drainAsync s slot).1 := rfl

theorem stepInv_enqueue_zero {s : CounterState} {ixn : CounterAsyncIx}
    {actor : Pubkey} {slot : Nat} (h : s.num_actions = 0) :
    stepInv s ⟨.enqueueOp ixn actor, slot⟩ = s := by
  rw [stepInv]
  simp only
  rw [queueAsync, if_pos h]

theorem stepInv_enqueue_pos {s : CounterState} {ixn : CounterAsyncIx}
    {actor : Pubkey} {slot : Nat} (h : ¬s.num_actions = 0) :
    stepInv s ⟨.enqueueOp ixn actor, slot⟩ =
      { s with
        seq := s.seq + 1
        num_actions := s.num_actions - 1
        async_queue := storeInsert ⟨slot, ixn.toU64, s.seq⟩ actor s.async_queue } := by
  rw [stepInv]
  simp only
  rw [queueAsync, if_neg h]

theorem stepInv_seq_le (s : CounterState) (i : Invocation) :
    s.seq ≤ (stepInv s i).seq := by
  rcases i with ⟨op, slot⟩
  cases op with
  | refillOp => exact Nat.le_refl _
  | drainOp =>
    rw [stepInv_drain]
    exact Nat.le_of_eq (drainAsync_seq s slot).symm
  | enqueueOp ixn actor =>
    by_cases h : s.num_actions = 0
    · rw [stepInv_enqueue_zero h]
    · rw [stepInv_enqueue_pos h]
      exact Nat.le_succ _

/-- Every key currently stored was stamped with a `seq` strictly below the
region's current `seq` counter. -/
abbrev SeqBound (s : CounterState) : Prop :=
  ∀ kv ∈ s.async_queue, kv.1.seq < s.seq

/-- No two stored nodes share a `seq` stamp. -/
abbrev SeqDistinct (s : CounterState) : Prop :=
  s.async_queue.Pairwise (fun a b => a.1.seq ≠ b.1.seq)

/-- Every stored key's kind field is a valid async discriminant. -/
abbrev KindBound (s : CounterState) : Prop :=
  ∀ kv ∈ s.async_queue, kv.1.ixn_value ≤ CounterAsyncIx.MAX_VARIANT

theorem drainAsync_queue_subset (s : CounterState) (c : Nat) :
    ∀ kv ∈ (drainAsync s c).1.async_queue, kv ∈ s.async_queue := by
  intro kv hkv
  rcases @drainFuel_take_drop s.async_queue.length s c with
    ⟨n, -, h2, -, -, -⟩
  have h3 : (drainAsync s c).1.async_queue = s.async_queue.drop n := h2
  rw [h3] at hkv
  exact List.drop_subset n _ hkv

theorem drainAsync_queue_pairwise {R : QueueNode → QueueNode → Prop}
    {s : CounterState} {c : Nat} (hq : s.async_queue.Pairwise R) :
    (drainAsync s c).1.async_queue.Pairwise R := by
  rcases @drainFuel_take_drop s.async_queue.length s c with
    ⟨n, -, h2, -, -, -⟩
  have h3 : (drainAsync s c).1.async_queue = s.async_queue.drop n := h2
  rw [h3]
  exact List.Pairwise.sublist (List.drop_sublist n _) hq

theorem seqInv_step (s : CounterState) (i : Invocation)
    (h1 : SeqBound s) (h2 : SeqDistinct s) :
    SeqBound (stepInv s i) ∧ SeqDistinct (stepInv s i) := by
  rcases i with ⟨op, slot⟩
  cases op with
  | refillOp => exact ⟨h1, h2⟩
  | drainOp =>
    rw [stepInv_drain]
    refine ⟨?_, drainAsync_queue_pairwise h2⟩
    intro kv hkv
    have := h1 kv (drainAsync_queue_subset s slot kv hkv)
    rw [drainAsync_seq]
    exact this
  | enqueueOp ixn actor =>
    by_cases h : s.num_actions = 0
    · rw [stepInv_enqueue_zero h]
      exact ⟨h1, h2⟩
    · rw [stepInv_enqueue_pos h]
      constructor
      · intro kv hkv
        rcases mem_storeInsert hkv with hkv | hkv
        · subst hkv
          exact Nat.lt_succ_self _
        · exact Nat.lt_succ_of_lt (h1 kv hkv)
      · refine pairwise_storeInsert h2 ?_
        intro kv hkv
        have := h1 kv hkv
        constructor
        · show s.seq ≠ kv.1.seq
          omega
        · show kv.1.seq ≠ s.seq
          omega

theorem kindBound_step (s : CounterState) (i : Invocation) (h : KindBound s) :
    KindBound (stepInv s i) := by
  rcases i with ⟨op, slot⟩
  cases op with
  | refillOp => exact h
  | drainOp =>
    rw [stepInv_drain]
    intro kv hkv
    exact h kv (drainAsync_queue_subset s slot kv hkv)
  | enqueueOp ixn actor =>
    by_cases hz : s.num_actions = 0
    · rw [stepInv_enqueue_zero hz]
      exact h
    · rw [stepInv_enqueue_pos hz]
      intro kv hkv
      rcases mem_storeInsert hkv with hkv | hkv
      · subst hkv
        cases ixn <;> simp [CounterAsyncIx.toU64, CounterAsyncIx.MAX_VARIANT]
      · exact h kv hkv

theorem runInvs_cons (s : CounterState) (i : Invocation) (invs : List Invocation) :
    runInvs s (i :: invs) = runInvs (stepInv s i) invs := rfl

theorem runInvs_seq_le (s : CounterState) (invs : List Invocation) :
    s.seq ≤ (runInvs s invs).seq := by
  induction invs generalizing s with
  | nil => exact Nat.le_refl _
  | cons i rest ih =>
    rw [runInvs_cons]
    exact Nat.le_trans (stepInv_seq_le s i) (ih (stepInv s i))

theorem seqInv_runInvs (s : CounterState) (invs : List Invocation)
    (h1 : SeqBound s) (h2 : SeqDistinct s) :
    SeqBound (runInvs s invs) ∧ SeqDistinct (runInvs s invs) := by
  induction invs generalizing s with
  | nil => exact ⟨h1, h2⟩
  | cons i rest ih =>
    rw [runInvs_cons]
    rcases seqInv_step s i h1 h2 with ⟨h1', h2'⟩
    exact ih (stepInv s i) h1' h2'

theorem kindBound_runInvs (s : CounterState) (invs : List Invocation)
    (h : KindBound s) : KindBound (runInvs s invs) := by
  induction invs generalizing s with
  | nil => exact h
  | cons i rest ih =>
    rw [runInvs_cons]
    exact ih (stepInv s i) (kindBound_step s i h)

theorem assignedSeqs_bound_chain (invs : List Invocation) (s : CounterState) :
    (∀ x ∈ assignedSeqs s invs, s.seq ≤ x)
    ∧ List.Chain' (· < ·) (assignedSeqs s invs) := by
  induction invs generalizing s with
  | nil => simp [assignedSeqs]
  | cons i rest ih =>
    rcases i with ⟨op, slot⟩
    cases op with
    | refillOp =>
      rcases ih (stepInv s ⟨.refillOp, slot⟩) with ⟨ih1, ih2⟩
      refine ⟨?_, ih2⟩
      intro x hx
      exact Nat.le_trans (stepInv_seq_le s _) (ih1 x hx)
    | drainOp =>
      rcases ih (stepInv s ⟨.drainOp, slot⟩) with ⟨ih1, ih2⟩
      refine ⟨?_, ih2⟩
      intro x hx
      exact Nat.le_trans (stepInv_seq_le s _) (ih1 x hx)
    | enqueueOp ixn actor =>
      by_cases h : s.num_actions = 0
      · simp only [assignedSeqs, if_pos h]
        rcases ih (stepInv s ⟨.enqueueOp ixn actor, slot⟩) with ⟨ih1, ih2⟩
        refine ⟨?_, ih2⟩
        intro x hx
        exact Nat.le_trans (stepInv_seq_le s _) (ih1 x hx)
      · simp only [assignedSeqs, if_neg h]
        rcases ih (stepInv s ⟨.enqueueOp ixn actor, slot⟩) with ⟨ih1, ih2⟩
        have hs : (stepInv s ⟨.enqueueOp ixn actor, slot⟩).seq = s.seq + 1 := by
          rw [stepInv_enqueue_pos h]
        constructor
        · intro x hx
          rcases List.mem_cons.mp hx with hx | hx
          · exact Nat.le_of_eq hx.symm
          · have := ih1 x hx
            omega
        · rw [List.chain'_cons']
          refine ⟨?_, ih2⟩
          intro y hy
          have hym := List.mem_of_mem_head? hy
          have := ih1 y hym
          omega

/-- C7: across every sequence of public operations on a freshly initialized
region, the `seq` values assigned to successive successful enqueues are
strictly increasing, the region's `seq` counter never decreases (it is
monotone along every prefix of the trace), and at no point do two stored
nodes share an equal key. -/
theorem c7_seq_monotonicity (invs : List Invocation) :
    List.Chain' (· < ·) (assignedSeqs initState invs)
    ∧ (∀ pre suf, invs = pre ++ suf →
        (runInvs initState pre).seq ≤ (runInvs initState invs).seq)
    ∧ (∀ pre suf, invs = pre ++ suf →
        (runInvs initState pre).async_queue.Pairwise (fun a b => a.1 ≠ b.1)) := by
  refine ⟨(assignedSeqs_bound_chain invs initState).2, ?_, ?_⟩
  · intro pre suf h
    subst h
    have h2 : runInvs initState (pre ++ suf) =
        runInvs (runInvs initState pre) suf := by
      simp [runInvs, List.foldl_append]
    rw [h2]
    exact runInvs_seq_le _ suf
  · intro pre suf h
    have hb : SeqBound initState := by simp [initState]
    have hd : SeqDistinct initState := List.Pairwise.nil
    rcases seqInv_runInvs initState pre hb hd with ⟨-, h2⟩
    exact List.Pairwise.imp
      (fun hne he => hne (congrArg AsyncIxKey.seq he)) h2

theorem c7_seq_monotonicity_witness :
    List.Chain' (· < ·) (assignedSeqs initState wTrace)
    ∧ (runInvs initState [⟨.refillOp, 0⟩, ⟨.enqueueOp .Increment 7, 0⟩]).seq ≤
        (runInvs initState wTrace).seq
    ∧ (runInvs initState wTrace).async_queue.Pairwise (fun a b => a.1 ≠ b.1) :=
  ⟨(c7_seq_monotonicity wTrace).1,
    (c7_seq_monotonicity wTrace).2.1
      [⟨.refillOp, 0⟩, ⟨.enqueueOp .Increment 7, 0⟩]
      [⟨.refillOp, 0⟩, ⟨.enqueueOp .Decrement 8, 0⟩] rfl,
    (c7_seq_monotonicity wTrace).2.2 wTrace [] (by simp)⟩

/-- C9: in every state reachable from a freshly initialized region by the
public operations, every stored node's kind field is at most
`CounterAsyncIx::MAX_VARIANT` (= 1), so the discriminant the drain path
reconstructs from a popped key's `ixn_value` is always a valid async
variant (the transmute in `process_next_async` never sees an out-of-range
enum tag). -/
theorem c9_stored_kinds_valid (invs : List Invocation) :
    ∀ kv ∈ (runInvs initState invs).async_queue,
      kv.1.ixn_value ≤ CounterAsyncIx.MAX_VARIANT
      ∧ (decodeKind kv.1.ixn_value).isSome = true := by
  intro kv hkv
  have h := kindBound_runInvs initState invs (by simp [initState]) kv hkv
  refine ⟨h, ?_⟩
  rw [CounterAsyncIx.MAX_VARIANT] at h
  rw [decodeKind]
  by_cases h0 : kv.1.ixn_value = 0
  · rw [if_pos h0]
    rfl
  · have h1 : kv.1.ixn_value = 1 := by omega
    rw [if_neg h0, if_pos h1]
    rfl

theorem c9_stored_kinds_valid_witness :
    ((⟨0, 1, 1⟩, 7) : QueueNode) ∈
      (runInvs initState [⟨.refillOp, 0⟩, ⟨.enqueueOp .Increment 7, 0⟩]).async_queue
    ∧ (⟨0, 1, 1⟩ : AsyncIxKey).ixn_value ≤ CounterAsyncIx.MAX_VARIANT :=
  ⟨by decide,
    (c9_stored_kinds_valid [⟨.refillOp, 0⟩, ⟨.enqueueOp .Increment 7, 0⟩]
      (⟨0, 1, 1⟩, 7) (by decide)).1⟩

/-
Tie-break: key order, insertion-order independence, pop order.
-/

theorem storeInsert_fresh_room {k : AsyncIxKey} {v : Pubkey} {q : List QueueNode}
    (hc : containsKey k q = false) (hlen : q.length < QUEUE_CAPACITY) :
    storeInsert k v q = sortedInsert k v q := by
  rw [storeInsert, hc]
  simp [Nat.not_le.mpr hlen]

theorem storeInsert_comm {kA kB : AsyncIxKey} {pa pb : Pubkey} {q : List QueueNode}
    (hs : q.Pairwise (fun x y => keyLtb x.1 y.1 = true))
    (hne : kA ≠ kB)
    (hA : containsKey kA q = false) (hB : containsKey kB q = false)
    (hroom : q.length + 2 ≤ QUEUE_CAPACITY) :
    storeInsert kA pa (storeInsert kB pb q) =
      storeInsert kB pb (storeInsert kA pa q) := by
  have hqlen : q.length < QUEUE_CAPACITY := by omega
  rw [storeInsert_fresh_room hB hqlen, storeInsert_fresh_room hA hqlen]
  have hA' : containsKey kA (sortedInsert kB pb q) = false :=
    containsKey_sortedInsert_of_ne hne hA
  have hB' : containsKey kB (sortedInsert kA pa q) = false :=
    containsKey_sortedInsert_of_ne (fun h => hne h.symm) hB
  have hlenB : (sortedInsert kB pb q).length = q.length + 1 :=
    length_sortedInsert_of_fresh hB
  have hlenA : (sortedInsert kA pa q).length = q.length + 1 :=
    length_sortedInsert_of_fresh hA
  rw [storeInsert_fresh_room hA' (by omega), storeInsert_fresh_room hB' (by omega)]
  have s1 : (sortedInsert kA pa (sortedInsert kB pb q)).Pairwise
      (fun x y => keyLtb x.1 y.1 = true) :=
    sorted_sortedInsert (sorted_sortedInsert hs)
  have s2 : (sortedInsert kB pb (sortedInsert kA pa q)).Pairwise
      (fun x y => keyLtb x.1 y.1 = true) :=
    sorted_sortedInsert (sorted_sortedInsert hs)
  have p1 : List.Perm (sortedInsert kA pa (sortedInsert kB pb q))
      ((kA, pa) :: (kB, pb) :: q) :=
    (perm_sortedInsert hA').trans ((perm_sortedInsert hB).cons _)
  have p2 : List.Perm (sortedInsert kB pb (sortedInsert kA pa q))
      ((kB, pb) :: (kA, pa) :: q) :=
    (perm_sortedInsert hB').trans ((perm_sortedInsert hA).cons _)
  have p3 : List.Perm ((kB, pb) :: (kA, pa) :: q) ((kA, pa) :: (kB, pb) :: q) :=
    List.Perm.swap _ _ _
  exact @List.eq_of_perm_of_sorted _ _
    ⟨fun _ _ h1 h2 => (keyLtb_asymm h1 h2).elim⟩ _ _
    (p1.trans ((p2.trans p3).symm)) s1 s2

theorem pair_sublist_take {l : List AsyncIxKey}
    (hl : l.Pairwise (fun x y => keyLtb x y = true))
    {a b : AsyncIxKey} (hab : keyLtb a b = true) :
    ∀ n, a ∈ l → b ∈ l.take n → List.Sublist [a, b] (l.take n) := by
  induction l with
  | nil =>
    intro n ha _
    simp at ha
  | cons x t ih =>
    intro n ha hb
    cases n with
    | zero => simp at hb
    | succ m =>
      rw [List.take_succ_cons] at hb ⊢
      rcases List.pairwise_cons.mp hl with ⟨hx, ht⟩
      by_cases hax : a = x
      · subst hax
        have hbt : b ∈ t.take m := by
          rcases List.mem_cons.mp hb with h | h
          · exact ((ne_of_keyLtb hab) h.symm).elim
          · exact h
        exact List.Sublist.cons₂ a (List.singleton_sublist.mpr hbt)
      · have hat : a ∈ t := by
          rcases List.mem_cons.mp ha with h | h
          · exact (hax h).elim
          · exact h
        have hbx : b ≠ x := by
          intro he
          subst he
          exact keyLtb_asymm hab (hx a hat)
        have hbt : b ∈ t.take m := by
          rcases List.mem_cons.mp hb with h | h
          · exact (hbx h).elim
          · exact h
        exact List.Sublist.cons x (ih ht m hat hbt)

/-- C5: priority keys compare lexicographically on (epoch, kind, seq)
ascending (the derived field-by-field order coincides with the spec's
lexicographic order); two keys with equal epoch and lower kind compare
lower; inserting two fresh actions into a store with room in either order
yields the same store; and whenever both actions of the same epoch are
stored, the one with the lower kind discriminant is popped strictly before
the other in any drain. -/
theorem c5_tie_break (e a b sa sb : Nat) (pa pb : Pubkey)
    (s : CounterState) (c : Nat) (hab : a < b) :
    (∀ k1 k2 : AsyncIxKey, keyLtb k1 k2 = true ↔ specKeyLt k1 k2)
    ∧ keyLtb ⟨e, a, sa⟩ ⟨e, b, sb⟩ = true
    ∧ (∀ q : List QueueNode, q.Pairwise (fun x y => keyLtb x.1 y.1 = true) →
        containsKey ⟨e, a, sa⟩ q = false → containsKey ⟨e, b, sb⟩ q = false →
        q.length + 2 ≤ QUEUE_CAPACITY →
        storeInsert ⟨e, a, sa⟩ pa (storeInsert ⟨e, b, sb⟩ pb q) =
          storeInsert ⟨e, b, sb⟩ pb (storeInsert ⟨e, a, sa⟩ pa q))
    ∧ (StoreSorted s →
        (⟨e, a, sa⟩ : AsyncIxKey) ∈ s.async_queue.map (fun kv => kv.1) →
        (⟨e, b, sb⟩ : AsyncIxKey) ∈ (drainAsync s c).2.map (fun kv => kv.1) →
        List.Sublist [(⟨e, a, sa⟩ : AsyncIxKey), ⟨e, b, sb⟩]
          ((drainAsync s c).2.map (fun kv => kv.1))) := by
  have hkey : keyLtb ⟨e, a, sa⟩ ⟨e, b, sb⟩ = true := by
    simp only [keyLtb, Bool.or_eq_true, Bool.and_eq_true, decide_eq_true_eq]
    exact Or.inr ⟨trivial, Or.inl hab⟩
  refine ⟨?_, hkey, ?_, ?_⟩
  · intro k1 k2
    simp only [keyLtb, specKeyLt, Bool.or_eq_true, Bool.and_eq_true, decide_eq_true_eq]
  · intro q hs' hcA hcB hroom
    exact storeInsert_comm hs' (by simp; omega) hcA hcB hroom
  · intro hs' hmemA hmemB
    rcases @drainFuel_take_drop s.async_queue.length s c with
      ⟨n, h1, -, -, -, -⟩
    have h2 : (drainAsync s c).2 = s.async_queue.take n := h1
    rw [h2] at hmemB ⊢
    rw [List.map_take] at hmemB ⊢
    have hpm : (s.async_queue.map (fun kv => kv.1)).Pairwise
        (fun x y => keyLtb x y = true) := List.pairwise_map.mpr hs'
    exact pair_sublist_take hpm hkey n hmemA hmemB

theorem c5_tie_break_witness :
    keyLtb ⟨3, 0, 5⟩ ⟨3, 1, 6⟩ = true
    ∧ storeInsert ⟨3, 0, 5⟩ 7 (storeInsert ⟨3, 1, 6⟩ 8 []) =
        storeInsert ⟨3, 1, 6⟩ 8 (storeInsert ⟨3, 0, 5⟩ 7 [])
    ∧ List.Sublist [(⟨3, 0, 5⟩ : AsyncIxKey), ⟨3, 1, 6⟩]
        ((drainAsync wState 4).2.map (fun kv => kv.1)) :=
  ⟨(c5_tie_break 3 0 1 5 6 7 8 wState 4 (by decide)).2.1,
    (c5_tie_break 3 0 1 5 6 7 8 wState 4 (by decide)).2.2.1 []
      List.Pairwise.nil rfl rfl (by decide),
    (c5_tie_break 3 0 1 5 6 7 8 wState 4 (by decide)).2.2.2
      (by decide) (by decide) (by decide)⟩
